import Mathlib

/-!
Verification of the YouTube transcript extractor pipeline
(`youtube_transcript_extractor.py`).

Text is modelled as `List Char`.  Python string operations used by the
program (`str.split()`, `str.strip()`, `' '.join`) are embedded as
executable Lean functions with the same semantics, and each method of
`YouTubeTranscriptExtractor` / `AITrainingDataPreparer` is translated
into a Lean definition over this model.
-/

set_option maxHeartbeats 1000000
set_option synthInstance.maxHeartbeats 400000

namespace YTX

/-- Transcript text, modelled as a list of characters. -/
abbrev Text := List Char

/-- The ASCII whitespace characters recognised by Python's `str.split()` /
`str.strip()` and the regex class `\s` (restricted to ASCII, which is all
that transcript text uses here). -/
def isPySpace (c : Char) : Bool :=
  c = ' ' || c = '\t' || c = '\n' || c = '\r' || c = '\x0b' || c = '\x0c'

/-- Worker for `pySplit`: `cur` is the word currently being accumulated. -/
def pySplitGo (cur : Text) : Text → List Text
  | [] => if cur = [] then [] else [cur]
  | c :: rest =>
    if isPySpace c then
      if cur = [] then pySplitGo [] rest else cur :: pySplitGo [] rest
    else
      pySplitGo (cur ++ [c]) rest

/-- Python `str.split()` with no argument: split on runs of whitespace,
discarding empty words. -/
def pySplit (t : Text) : List Text := pySplitGo [] t

/-- Python `str.strip()`: drop leading and trailing whitespace. -/
def pyStrip (t : Text) : Text :=
  ((t.dropWhile isPySpace).reverse.dropWhile isPySpace).reverse

/-- Python `' '.join(ws)`: interleave a single space between the words. -/
def joinSp : List Text → Text
  | [] => []
  | [w] => w
  | w :: w2 :: ws => w ++ ' ' :: joinSp (w2 :: ws)

/-- Length of `' '.join(g)`. -/
def joinLen (g : List Text) : Nat := (joinSp g).length

/-- The loop of `AITrainingDataPreparer.chunk_text`: state is
(`chunks`, `current_chunk`, `current_length`) exactly as in the source. -/
def chunkGo (maxLen : Nat) : List Text → List Text → List Text → Nat → List Text
  | [], chunks, cur, _ =>
    chunks ++ (if cur = [] then [] else [joinSp cur])
  | w :: ws, chunks, cur, clen =>
    if clen + w.length + 1 ≤ maxLen then
      chunkGo maxLen ws chunks (cur ++ [w]) (clen + w.length + 1)
    else if cur = [] then
      chunkGo maxLen ws chunks [w] w.length
    else
      chunkGo maxLen ws (chunks ++ [joinSp cur]) [w] w.length

/-- `AITrainingDataPreparer.chunk_text(text)` with
`max_chunk_length = maxLen`: split into words, greedily pack words into
chunks, flush the accumulated chunk when the next word would overflow and
once more at end of input. -/
def chunk_text (maxLen : Nat) (text : Text) : List Text :=
  chunkGo maxLen (pySplit text) [] [] 0

/-- Length of the longest word in a word list (0 when empty). -/
def maxWordLen (ws : List Text) : Nat :=
  ws.foldr (fun w m => max w.length m) 0

/-! ### Lemmas about `pySplit` -/

theorem pySplitGo_words : ∀ (t cur : Text), (∀ c ∈ cur, isPySpace c = false) →
    ∀ w ∈ pySplitGo cur t, w ≠ [] ∧ ∀ c ∈ w, isPySpace c = false := by
  intro t
  induction t with
  | nil =>
    intro cur hcur w hw
    by_cases h : cur = [] <;> simp [pySplitGo, h] at hw
    subst hw; exact ⟨h, hcur⟩
  | cons c rest ih =>
    intro cur hcur w hw
    by_cases hsp : isPySpace c
    · by_cases h : cur = []
      · rw [pySplitGo] at hw
        simp [hsp, h] at hw
        exact ih [] (by simp) w hw
      · rw [pySplitGo] at hw
        simp [hsp, h] at hw
        rcases hw with rfl | hw
        · exact ⟨h, hcur⟩
        · exact ih [] (by simp) w hw
    · rw [pySplitGo] at hw
      simp [hsp] at hw
      refine ih (cur ++ [c]) ?_ w hw
      intro x hx
      rcases List.mem_append.1 hx with hx | hx
      · exact hcur x hx
      · simp at hx; subst hx
        simpa using hsp

theorem pySplit_words_wf (t : Text) :
    ∀ w ∈ pySplit t, w ≠ [] ∧ ∀ c ∈ w, isPySpace c = false :=
  pySplitGo_words t [] (by simp)

theorem pySplitGo_word_append : ∀ (w : Text), (∀ c ∈ w, isPySpace c = false) →
    ∀ (cur t : Text), pySplitGo cur (w ++ t) = pySplitGo (cur ++ w) t := by
  intro w
  induction w with
  | nil => intro _ cur t; simp
  | cons c w' ih =>
    intro hw cur t
    have hc : isPySpace c = false := hw c (by simp)
    rw [List.cons_append, pySplitGo]
    simp only [hc, Bool.false_eq_true, if_false]
    rw [ih (fun x hx => hw x (by simp [hx])) (cur ++ [c]) t]
    simp

theorem pySplitGo_space (c : Char) (hc : isPySpace c = true) (cur t : Text) :
    pySplitGo cur (c :: t) =
      if cur = [] then pySplitGo [] t else cur :: pySplitGo [] t := by
  rw [pySplitGo]; simp [hc]

theorem pySplit_joinSp : ∀ (ws : List Text),
    (∀ w ∈ ws, w ≠ [] ∧ ∀ c ∈ w, isPySpace c = false) →
    pySplit (joinSp ws) = ws := by
  intro ws
  induction ws with
  | nil => intro _; rfl
  | cons w ws ih =>
    intro hws
    obtain ⟨hwne, hwc⟩ := hws w (by simp)
    cases ws with
    | nil =>
      have h1 := pySplitGo_word_append w hwc [] []
      simp only [List.append_nil, List.nil_append] at h1
      show pySplit (joinSp [w]) = [w]
      rw [show joinSp [w] = w from rfl]
      unfold pySplit
      rw [h1, pySplitGo]
      simp [hwne]
    | cons w2 ws' =>
      have hA := pySplitGo_word_append w hwc [] (' ' :: joinSp (w2 :: ws'))
      simp only [List.nil_append] at hA
      have : pySplit (joinSp (w :: w2 :: ws')) = pySplitGo w (' ' :: joinSp (w2 :: ws')) := by
        rw [show joinSp (w :: w2 :: ws') = w ++ ' ' :: joinSp (w2 :: ws') from rfl]
        exact hA
      rw [this, pySplitGo_space ' ' (by decide)]
      simp only [hwne, if_false]
      have := ih (fun x hx => hws x (by simp [hx]))
      rw [show pySplitGo [] (joinSp (w2 :: ws')) = pySplit (joinSp (w2 :: ws')) from rfl, this]

theorem pySplitGo_all_space : ∀ (t : Text), (∀ c ∈ t, isPySpace c = true) →
    pySplitGo [] t = [] := by
  intro t
  induction t with
  | nil => intro _; rfl
  | cons c rest ih =>
    intro h
    rw [pySplitGo]
    simp [h c (by simp)]
    exact ih (fun x hx => h x (by simp [hx]))

/-! ### Lemmas about `joinSp` and `joinLen` -/

theorem joinSp_append : ∀ (a : List Text) (b : List Text), a ≠ [] → b ≠ [] →
    joinSp (a ++ b) = joinSp a ++ ' ' :: joinSp b := by
  intro a
  induction a with
  | nil => intro b h; exact absurd rfl h
  | cons w a' ih =>
    intro b _ hb
    cases a' with
    | nil =>
      obtain ⟨x, xs, rfl⟩ := List.exists_cons_of_ne_nil hb
      rfl
    | cons w2 a'' =>
      have h1 : joinSp ((w :: w2 :: a'') ++ b) = w ++ ' ' :: joinSp ((w2 :: a'') ++ b) := rfl
      rw [h1, ih b (by simp) hb,
        show joinSp (w :: w2 :: a'') = w ++ ' ' :: joinSp (w2 :: a'') from rfl]
      simp

theorem joinSp_concat (a : List Text) (w : Text) (ha : a ≠ []) :
    joinSp (a ++ [w]) = joinSp a ++ ' ' :: w :=
  joinSp_append a [w] ha (by simp)

theorem joinLen_nil : joinLen [] = 0 := rfl

theorem joinLen_single (w : Text) : joinLen [w] = w.length := rfl

theorem joinLen_concat (a : List Text) (w : Text) (ha : a ≠ []) :
    joinLen (a ++ [w]) = joinLen a + 1 + w.length := by
  unfold joinLen
  rw [joinSp_concat a w ha]
  simp [List.length_append]
  omega

theorem joinLen_cons₂ (x x2 : Text) (g : List Text) :
    joinLen (x :: x2 :: g) = x.length + 1 + joinLen (x2 :: g) := by
  unfold joinLen
  rw [show joinSp (x :: x2 :: g) = x ++ ' ' :: joinSp (x2 :: g) from rfl]
  simp [List.length_append]
  omega

theorem joinLen_mem_le : ∀ (g : List Text) (w : Text), w ∈ g → w.length ≤ joinLen g := by
  intro g
  induction g with
  | nil => simp
  | cons x g' ih =>
    intro w hw
    cases g' with
    | nil =>
      simp at hw; subst hw
      simp [joinLen_single]
    | cons x2 g'' =>
      rw [joinLen_cons₂]
      rcases List.mem_cons.1 hw with rfl | hw
      · omega
      · have := ih w hw; omega

theorem joinSp_map_joinSp : ∀ (gs : List (List Text)), (∀ g ∈ gs, g ≠ []) →
    joinSp (gs.map joinSp) = joinSp gs.flatten := by
  intro gs
  induction gs with
  | nil => intro _; rfl
  | cons g gs ih =>
    intro h
    cases gs with
    | nil => simp [joinSp]
    | cons g2 gs' =>
      have hg : g ≠ [] := h g (by simp)
      have hg2 : g2 ≠ [] := h g2 (by simp)
      have hjoin : (g2 :: gs').flatten ≠ [] := by
        simp only [List.flatten_cons]
        intro hc
        exact hg2 (List.append_eq_nil.1 hc).1
      have h1 : (g :: g2 :: gs').map joinSp = joinSp g :: joinSp g2 :: gs'.map joinSp := rfl
      rw [h1]
      rw [show joinSp (joinSp g :: joinSp g2 :: gs'.map joinSp)
            = joinSp g ++ ' ' :: joinSp (joinSp g2 :: gs'.map joinSp) from rfl]
      rw [show (joinSp g2 :: gs'.map joinSp) = (g2 :: gs').map joinSp from rfl]
      rw [ih (fun x hx => h x (by simp [hx]))]
      rw [← joinSp_append g ((g2 :: gs').flatten) hg hjoin]
      simp [List.flatten_cons]

theorem maxWordLen_cons (w : Text) (ws : List Text) :
    maxWordLen (w :: ws) = max w.length (maxWordLen ws) := rfl

theorem maxWordLen_mem (ws : List Text) (w : Text) (hw : w ∈ ws) :
    w.length ≤ maxWordLen ws := by
  induction ws with
  | nil => simp at hw
  | cons x ws ih =>
    rw [maxWordLen_cons]
    rcases List.mem_cons.1 hw with rfl | hw
    · exact le_max_left _ _
    · exact le_trans (ih hw) (le_max_right _ _)

/-! ### The chunking loop invariant -/

theorem chunkGo_spec (maxLen : Nat) : ∀ (ws : List Text) (gs : List (List Text))
    (cur : List Text) (clen : Nat),
    (∀ g ∈ gs, g ≠ [] ∧ (2 ≤ g.length → joinLen g ≤ maxLen)) →
    joinLen cur ≤ clen →
    (2 ≤ cur.length → clen ≤ maxLen) →
    ∃ gs' : List (List Text),
      chunkGo maxLen ws (gs.map joinSp) cur clen = gs'.map joinSp ∧
      (∀ g ∈ gs', g ≠ [] ∧ (2 ≤ g.length → joinLen g ≤ maxLen)) ∧
      gs'.flatten = gs.flatten ++ cur ++ ws := by
  intro ws
  induction ws with
  | nil =>
    intro gs cur clen hgs hcl hc2
    by_cases hcur : cur = []
    · exact ⟨gs, by simp [chunkGo, hcur], hgs, by simp [hcur]⟩
    · refine ⟨gs ++ [cur], by simp [chunkGo, hcur], ?_, by simp⟩
      intro g hg
      rcases List.mem_append.1 hg with hg | hg
      · exact hgs g hg
      · simp at hg; subst hg
        exact ⟨hcur, fun h2 => le_trans hcl (hc2 h2)⟩
  | cons w ws ih =>
    intro gs cur clen hgs hcl hc2
    rw [chunkGo]
    by_cases hfit : clen + w.length + 1 ≤ maxLen
    · simp only [if_pos hfit]
      have h1 : joinLen (cur ++ [w]) ≤ clen + w.length + 1 := by
        by_cases hcur : cur = []
        · subst hcur; simp [joinLen_single]; omega
        · rw [joinLen_concat _ _ hcur]; omega
      obtain ⟨gs', e, inv, j⟩ := ih gs (cur ++ [w]) _ hgs h1 (fun _ => hfit)
      refine ⟨gs', e, inv, ?_⟩
      rw [j]; simp [List.append_assoc]
    · simp only [if_neg hfit]
      by_cases hcur : cur = []
      · simp only [if_pos hcur]
        obtain ⟨gs', e, inv, j⟩ :=
          ih gs [w] w.length hgs (le_of_eq (joinLen_single w)) (by intro h; simp at h)
        refine ⟨gs', e, inv, ?_⟩
        rw [j]; simp [hcur]
      · simp only [if_neg hcur]
        have hnew : ∀ g ∈ gs ++ [cur], g ≠ [] ∧ (2 ≤ g.length → joinLen g ≤ maxLen) := by
          intro g hg
          rcases List.mem_append.1 hg with hg | hg
          · exact hgs g hg
          · simp at hg; subst hg
            exact ⟨hcur, fun h2 => le_trans hcl (hc2 h2)⟩
        rw [show gs.map joinSp ++ [joinSp cur] = (gs ++ [cur]).map joinSp by simp]
        obtain ⟨gs', e, inv, j⟩ :=
          ih (gs ++ [cur]) [w] w.length hnew (le_of_eq (joinLen_single w))
            (by intro h; simp at h)
        refine ⟨gs', e, inv, ?_⟩
        rw [j]; simp [List.append_assoc]

/-- Every chunk list produced by `chunk_text` is the space-join of a partition
of the input's word sequence into non-empty groups, where every group of two
or more words joins to at most `maxLen` characters. -/
theorem chunk_text_groups (maxLen : Nat) (t : Text) :
    ∃ gs : List (List Text),
      chunk_text maxLen t = gs.map joinSp ∧
      gs.flatten = pySplit t ∧
      ∀ g ∈ gs, g ≠ [] ∧ (2 ≤ g.length → joinLen g ≤ maxLen) := by
  obtain ⟨gs', e, inv, j⟩ :=
    chunkGo_spec maxLen (pySplit t) [] [] 0 (by simp) (le_of_eq joinLen_nil)
      (by intro h; simp at h)
  exact ⟨gs', by simpa [chunk_text] using e, by simpa using j, inv⟩

theorem joinSp_cons (x : Text) (l : List Text) (hl : l ≠ []) :
    joinSp (x :: l) = x ++ ' ' :: joinSp l := by
  obtain ⟨y, ys, rfl⟩ := List.exists_cons_of_ne_nil hl
  rfl

theorem joinSp_head? (w : Text) (g : List Text) (hw : w ≠ []) :
    (joinSp (w :: g)).head? = w.head? := by
  cases g with
  | nil => rfl
  | cons g2 gs =>
    obtain ⟨a, w', rfl⟩ := List.exists_cons_of_ne_nil hw
    rfl

theorem joinSp_getLast? : ∀ (g : List Text) (w : Text), w ≠ [] →
    (joinSp (g ++ [w])).getLast? = w.getLast? := by
  intro g
  induction g with
  | nil => intro w hw; rfl
  | cons x g' ih =>
    intro w hw
    have h1 : g' ++ [w] ≠ [] := by simp
    have ihh := ih w hw
    have hne : joinSp (g' ++ [w]) ≠ [] := by
      intro hc
      rw [hc] at ihh
      obtain ⟨a, w', rfl⟩ := List.exists_cons_of_ne_nil hw
      simp [List.getLast?_cons] at ihh
    rw [show (x :: g') ++ [w] = x :: (g' ++ [w]) from rfl,
      joinSp_cons x _ h1,
      show x ++ ' ' :: joinSp (g' ++ [w]) = (x ++ [' ']) ++ joinSp (g' ++ [w]) by simp,
      List.getLast?_append, ihh]
    obtain (hnil | ⟨L, b, hw2⟩) := w.eq_nil_or_concat
    · exact absurd hnil hw
    · subst hw2
      rw [List.concat_eq_append, List.getLast?_concat]
      simp

/-! ### Claims C1, C2, C10 about `chunk_text` -/

/-- **C1.** For every input text and positive `maxChunkLength`, `chunk_text`
never splits a word across chunks (every chunk is the space-join of a group of
consecutive whole words of the input), and joining the chunks with single
spaces and re-splitting on whitespace recovers exactly the input's word
sequence. -/
theorem chunk_text_word_sequence (maxLen : Nat) (t : Text) (_hpos : 0 < maxLen) :
    pySplit (joinSp (chunk_text maxLen t)) = pySplit t ∧
    ∃ gs : List (List Text), chunk_text maxLen t = gs.map joinSp ∧
      gs.flatten = pySplit t := by
  obtain ⟨gs, e, j, inv⟩ := chunk_text_groups maxLen t
  refine ⟨?_, gs, e, j⟩
  rw [e, joinSp_map_joinSp gs (fun g hg => (inv g hg).1), j]
  exact pySplit_joinSp _ (pySplit_words_wf t)

/-- Closed witness for `chunk_text_word_sequence` at `"a b c"` with
`maxChunkLength = 3`. -/
theorem chunk_text_word_sequence_witness :
    0 < 3 ∧
    (pySplit (joinSp (chunk_text 3 ("a b c".data))) = pySplit ("a b c".data) ∧
      ∃ gs : List (List Text), chunk_text 3 ("a b c".data) = gs.map joinSp ∧
        gs.flatten = pySplit ("a b c".data)) :=
  ⟨by decide, chunk_text_word_sequence 3 ("a b c".data) (by decide)⟩

/-- **C2.** For every input text and positive `maxChunkLength = maxLen`,
every returned chunk has length at most `max maxLen (longest word length)`;
a word longer than `maxLen` appears alone as its own chunk; and every word
of the input ends up in some chunk (in particular the final accumulated
chunk is emitted). -/
theorem chunk_text_chunk_length (maxLen : Nat) (t : Text) (_hpos : 0 < maxLen) :
    (∀ ch ∈ chunk_text maxLen t, ch.length ≤ max maxLen (maxWordLen (pySplit t))) ∧
    (∀ w ∈ pySplit t, maxLen < w.length → w ∈ chunk_text maxLen t) ∧
    (∀ w ∈ pySplit t, ∃ ch ∈ chunk_text maxLen t, w ∈ pySplit ch) := by
  obtain ⟨gs, e, j, inv⟩ := chunk_text_groups maxLen t
  have hwf : ∀ g ∈ gs, ∀ x ∈ g, x ≠ [] ∧ ∀ c ∈ x, isPySpace c = false := by
    intro g hg x hx
    exact pySplit_words_wf t x (j ▸ List.mem_flatten.2 ⟨g, hg, hx⟩)
  refine ⟨?_, ?_, ?_⟩
  · intro ch hch
    rw [e] at hch
    obtain ⟨g, hg, rfl⟩ := List.mem_map.1 hch
    obtain ⟨gne, gbound⟩ := inv g hg
    match g, gne with
    | [w], _ =>
      have hw : w ∈ pySplit t := j ▸ List.mem_flatten.2 ⟨[w], hg, by simp⟩
      calc (joinSp [w]).length = w.length := rfl
        _ ≤ maxWordLen (pySplit t) := maxWordLen_mem _ w hw
        _ ≤ max maxLen (maxWordLen (pySplit t)) := le_max_right _ _
    | w :: w2 :: g', _ =>
      have h2 : joinLen (w :: w2 :: g') ≤ maxLen := gbound (by simp)
      calc (joinSp (w :: w2 :: g')).length = joinLen (w :: w2 :: g') := rfl
        _ ≤ maxLen := h2
        _ ≤ max maxLen _ := le_max_left _ _
  · intro w hw hlong
    rw [← j] at hw
    obtain ⟨g, hg, hwg⟩ := List.mem_flatten.1 hw
    obtain ⟨gne, gbound⟩ := inv g hg
    match g, gne, hg, hwg with
    | [x], _, hg, hwg =>
      have : w = x := by simpa using hwg
      subst this
      rw [e]
      exact List.mem_map.2 ⟨[w], hg, rfl⟩
    | x :: x2 :: g', _, hg, hwg =>
      have h2 : joinLen (x :: x2 :: g') ≤ maxLen := gbound (by simp)
      have h3 : w.length ≤ joinLen (x :: x2 :: g') := joinLen_mem_le _ w hwg
      omega
  · intro w hw
    rw [← j] at hw
    obtain ⟨g, hg, hwg⟩ := List.mem_flatten.1 hw
    refine ⟨joinSp g, ?_, ?_⟩
    · rw [e]; exact List.mem_map.2 ⟨g, hg, rfl⟩
    · rw [pySplit_joinSp g (hwf g hg)]
      exact hwg

/-- Closed witness for `chunk_text_chunk_length` at `"aaaa b"` with
`maxChunkLength = 3` (the word `aaaa` is longer than 3). -/
theorem chunk_text_chunk_length_witness :
    0 < 3 ∧
    (∀ ch ∈ chunk_text 3 ("aaaa b".data),
      ch.length ≤ max 3 (maxWordLen (pySplit ("aaaa b".data)))) ∧
    ("aaaa".data ∈ chunk_text 3 ("aaaa b".data)) :=
  ⟨by decide,
   (chunk_text_chunk_length 3 ("aaaa b".data) (by decide)).1,
   (chunk_text_chunk_length 3 ("aaaa b".data) (by decide)).2.1 ("aaaa".data)
     (by decide) (by decide)⟩

/-- **C10.** `chunk_text` returns `[]` on whitespace-only (or empty) input,
and every chunk it returns is a non-empty string whose first and last
characters are not whitespace — it never emits an empty chunk. -/
theorem chunk_text_no_empty_chunks (maxLen : Nat) (t : Text) :
    ((∀ c ∈ t, isPySpace c = true) → chunk_text maxLen t = []) ∧
    ∀ ch ∈ chunk_text maxLen t, ch ≠ [] ∧
      (∀ a, ch.head? = some a → isPySpace a = false) ∧
      (∀ a, ch.getLast? = some a → isPySpace a = false) := by
  constructor
  · intro hsp
    have h0 : pySplit t = [] := pySplitGo_all_space t hsp
    simp [chunk_text, h0, chunkGo]
  · intro ch hch
    obtain ⟨gs, e, j, inv⟩ := chunk_text_groups maxLen t
    have hwf : ∀ g ∈ gs, ∀ x ∈ g, x ≠ [] ∧ ∀ c ∈ x, isPySpace c = false := by
      intro g hg x hx
      exact pySplit_words_wf t x (j ▸ List.mem_flatten.2 ⟨g, hg, hx⟩)
    rw [e] at hch
    obtain ⟨g, hg, rfl⟩ := List.mem_map.1 hch
    obtain ⟨gne, -⟩ := inv g hg
    obtain ⟨w, g', rfl⟩ := List.exists_cons_of_ne_nil gne
    obtain ⟨hwne, hwc⟩ := hwf _ hg w (by simp)
    refine ⟨?_, ?_, ?_⟩
    · have h1 : w.length ≤ joinLen (w :: g') := joinLen_mem_le _ w (by simp)
      have h2 : 0 < w.length := List.length_pos.2 hwne
      intro hc
      have : joinLen (w :: g') = 0 := by simp [joinLen, hc]
      omega
    · intro a ha
      rw [joinSp_head? w g' hwne] at ha
      obtain ⟨b, w0, rfl⟩ := List.exists_cons_of_ne_nil hwne
      rw [List.head?_cons] at ha
      exact (Option.some.inj ha) ▸ hwc b (by simp)
    · intro a ha
      obtain (hnil | ⟨g0, wl, hcat⟩) := (w :: g').eq_nil_or_concat
      · exact absurd hnil (by simp)
      · rw [List.concat_eq_append] at hcat
        obtain ⟨hlne, hlc⟩ := hwf _ hg wl (by rw [hcat]; simp)
        rw [hcat, joinSp_getLast? g0 wl hlne] at ha
        exact hlc a (List.mem_of_mem_getLast? ha)

/-- Closed witness for `chunk_text_no_empty_chunks`: whitespace-only input
gives `[]`, and on `"a bb"` every chunk is non-empty. -/
theorem chunk_text_no_empty_chunks_witness :
    chunk_text 5 (" \t\x0a ".data) = [] ∧
    ∀ ch ∈ chunk_text 3 ("a bb".data), ch ≠ [] :=
  ⟨(chunk_text_no_empty_chunks 5 (" \t\x0a ".data)).1 (by decide),
   fun ch hch => ((chunk_text_no_empty_chunks 3 ("a bb".data)).2 ch hch).1⟩

/-! ### The text normalizer `clean_transcript_text` -/

/-- One pass implementing Python `re.sub` of the non-greedy single-line
span `opn .*? close` by the empty string (leftmost, non-overlapping, `.`
not matching a newline).  `buf = some b` means an unclosed `opn` has been
seen and `b` holds the characters scanned since; the closing character
discards `opn :: b`, while end of input or a newline emits it verbatim
(no match can start inside `b`: it contains no closing character and any
later closer is cut off by the newline). -/
def removeDelimGo (opn close : Char) (buf : Option Text) : Text → Text
  | [] =>
    match buf with
    | none => []
    | some b => opn :: b
  | c :: rest =>
    match buf with
    | none =>
      if c = opn then removeDelimGo opn close (some []) rest
      else c :: removeDelimGo opn close none rest
    | some b =>
      if c = close then removeDelimGo opn close none rest
      else if c = '\n' then (opn :: b) ++ c :: removeDelimGo opn close none rest
      else removeDelimGo opn close (some (b ++ [c])) rest

/-- Replace every maximal run of characters satisfying `p` by one space. -/
def collapseRuns (p : Char → Bool) : Text → Text
  | [] => []
  | [c] => if p c then [' '] else [c]
  | c1 :: c2 :: rest =>
    if p c1 then
      if p c2 then collapseRuns p (c2 :: rest)
      else ' ' :: collapseRuns p (c2 :: rest)
    else c1 :: collapseRuns p (c2 :: rest)

/-- `YouTubeTranscriptExtractor.clean_transcript_text`: remove bracketed
then parenthesised spans, collapse newline runs to a space, collapse
whitespace runs to a space, then strip. -/
def clean_transcript_text (text : Text) : Text :=
  pyStrip (collapseRuns isPySpace
    (collapseRuns (fun c => c = '\n')
      (removeDelimGo '(' ')' none
        (removeDelimGo '[' ']' none text))))

/-! ### Per-video records and the transcript fetcher -/

/-- Start/duration values from the captioning service; the program only
carries them through unchanged, so an integral payload stands in for the
float cue timing. -/
abbrev TimeStamp := Int

/-- One raw cue returned by `YouTubeTranscriptApi.get_transcript`:
`entry['start']`, optional `entry['duration']`, `entry['text']`. -/
structure RawEntry where
  start : TimeStamp
  duration : Option TimeStamp
  text : Text
  deriving DecidableEq

/-- One processed segment built by `extract_single_transcript`. -/
structure Segment where
  start : TimeStamp
  duration : TimeStamp
  text : Text
  deriving DecidableEq

/-- The per-video result dict.  The source builds dicts with different key
sets for success and failure, so every field except `status` is optional. -/
structure TranscriptRecord where
  video_id : Option Text
  full_text : Option Text
  segments : Option (List Segment)
  total_segments : Option Nat
  error : Option Text
  status : Text
  deriving DecidableEq

/-- The body of the per-cue loop in `extract_single_transcript`: clean the
cue text, append it (plus a trailing space) to the accumulated full text,
and append the processed segment. -/
def fetchStep (acc : Text × List Segment) (entry : RawEntry) :
    Text × List Segment :=
  let cleaned_text := clean_transcript_text entry.text
  (acc.1 ++ cleaned_text ++ [' '],
   acc.2 ++ [⟨entry.start, entry.duration.getD 0, cleaned_text⟩])

/-- `YouTubeTranscriptExtractor.extract_single_transcript`, parameterized
by the external captioning service `getTranscript` (modelled as returning
either the cue list or the string description of the raised error, which
the `try/except` in the source catches and stores). -/
def extract_single_transcript (getTranscript : Text → Except Text (List RawEntry))
    (video_id : Text) : TranscriptRecord :=
  match getTranscript video_id with
  | .ok transcript_list =>
    let acc := transcript_list.foldl fetchStep ([], [])
    { video_id := some video_id
      full_text := some (pyStrip acc.1)
      segments := some acc.2
      total_segments := some acc.2.length
      error := none
      status := "success".data }
  | .error e =>
    { video_id := some video_id
      full_text := none
      segments := none
      total_segments := none
      error := some e
      status := "failed".data }

/-! ### The URL parser `extract_video_id` -/

/-- Characters admitted into the regex capture `([^&\n?#]+)`. -/
def idChar (c : Char) : Bool :=
  !(c == '&' || c == '\n' || c == '?' || c == '#')

/-- Match the literal `lit` at the head of `s`, returning the remainder. -/
def matchLit : Text → Text → Option Text
  | [], s => some s
  | _ :: _, [] => none
  | l :: ls, c :: cs => if l = c then matchLit ls cs else none

/-- `re.search` for `(?:https?://)?(?:www\.)?<lit>([^&\n?#]+)`: the
optional scheme/host groups never change the captured group (neither
contains the core literal nor overlaps it), so the capture is the maximal
run of `idChar` characters after the leftmost occurrence of `lit` that is
followed by at least one such character. -/
def searchCapture (lit : Text) : Text → Option Text
  | [] => none
  | c :: rest =>
    match matchLit lit (c :: rest) with
    | some tail =>
      let cap := tail.takeWhile idChar
      if cap = [] then searchCapture lit rest else some cap
    | none => searchCapture lit rest

/-- `YouTubeTranscriptExtractor.extract_video_id`: try the `watch?v=`,
short-link and `embed/` patterns in order, returning the first capture;
`none` when no pattern matches. -/
def extract_video_id (url : Text) : Option Text :=
  match searchCapture ("youtube.com/watch?v=".data) url with
  | some v => some v
  | none =>
    match searchCapture ("youtu.be/".data) url with
    | some v => some v
    | none => searchCapture ("youtube.com/embed/".data) url

/-! ### The batch extractor `extract_transcripts` -/

/-- Python dict assignment `d[k] = v` on an insertion-ordered dict:
overwrite in place if the key exists, otherwise append. -/
def dictInsert (k : Text) (v : TranscriptRecord) :
    List (Text × TranscriptRecord) → List (Text × TranscriptRecord)
  | [] => [(k, v)]
  | (k2, v2) :: rest =>
    if k2 = k then (k2, v) :: rest else (k2, v2) :: dictInsert k v rest

/-- The record stored for a URL whose video id cannot be parsed. -/
def invalidUrlRecord : TranscriptRecord :=
  { video_id := none, full_text := none, segments := none,
    total_segments := none, error := some ("Invalid YouTube URL".data),
    status := "failed".data }

/-- The body of the per-URL loop in `extract_transcripts`. -/
def extractStep (getTranscript : Text → Except Text (List RawEntry))
    (results : List (Text × TranscriptRecord)) (url : Text) :
    List (Text × TranscriptRecord) :=
  match extract_video_id url with
  | some video_id =>
    dictInsert video_id (extract_single_transcript getTranscript video_id) results
  | none => dictInsert url invalidUrlRecord results

/-- `YouTubeTranscriptExtractor.extract_transcripts`: process the URLs in
input order, storing the fetch result keyed by video id when the URL
parses and an invalid-URL failure keyed by the raw URL otherwise. -/
def extract_transcripts (getTranscript : Text → Except Text (List RawEntry))
    (urls : List Text) : List (Text × TranscriptRecord) :=
  urls.foldl (extractStep getTranscript) []

/-- The key under which a URL's result is stored. -/
def urlKey (url : Text) : Text :=
  match extract_video_id url with
  | some video_id => video_id
  | none => url

/-- The record a URL contributes to the batch. -/
def urlRecord (getTranscript : Text → Except Text (List RawEntry))
    (url : Text) : TranscriptRecord :=
  match extract_video_id url with
  | some video_id => extract_single_transcript getTranscript video_id
  | none => invalidUrlRecord

/-! ### Lemmas about the fetcher -/

theorem fetchStep_foldl : ∀ (entries : List RawEntry) (t0 : Text) (s0 : List Segment),
    entries.foldl fetchStep (t0, s0) =
      (t0 ++ (entries.map (fun e => clean_transcript_text e.text ++ [' '])).flatten,
       s0 ++ entries.map
         (fun e => Segment.mk e.start (e.duration.getD 0) (clean_transcript_text e.text))) := by
  intro entries
  induction entries with
  | nil => intro t0 s0; simp
  | cons e es ih =>
    intro t0 s0
    rw [List.foldl_cons]
    rw [show fetchStep (t0, s0) e =
        (t0 ++ clean_transcript_text e.text ++ [' '],
         s0 ++ [Segment.mk e.start (e.duration.getD 0) (clean_transcript_text e.text)])
      from rfl]
    rw [ih]
    simp [List.append_assoc]

theorem mapSp_flatten_eq : ∀ (ts : List Text), ts ≠ [] →
    (ts.map (fun t => t ++ [' '])).flatten = joinSp ts ++ [' '] := by
  intro ts
  induction ts with
  | nil => intro h; exact absurd rfl h
  | cons t ts ih =>
    intro _
    cases ts with
    | nil => simp [joinSp]
    | cons t2 ts2 =>
      rw [List.map_cons, List.flatten_cons, ih (by simp),
        joinSp_cons t _ (by simp)]
      simp

theorem dropWhile_append_of_nil {p : Char → Bool} :
    ∀ (l r : Text), l.dropWhile p = [] → (l ++ r).dropWhile p = r.dropWhile p := by
  intro l
  induction l with
  | nil => intro r _; rfl
  | cons c l2 ih =>
    intro r h
    rw [List.dropWhile_cons] at h
    by_cases hc : p c
    · simp only [hc, if_true] at h
      rw [List.cons_append, List.dropWhile_cons]
      simp only [hc, if_true]
      exact ih r h
    · simp [hc] at h

theorem dropWhile_append_ne {p : Char → Bool} :
    ∀ (l r : Text), l.dropWhile p ≠ [] → (l ++ r).dropWhile p = l.dropWhile p ++ r := by
  intro l
  induction l with
  | nil => intro r h; exact absurd rfl h
  | cons c l2 ih =>
    intro r h
    rw [List.dropWhile_cons] at h
    rw [List.cons_append, List.dropWhile_cons, List.dropWhile_cons]
    by_cases hc : p c
    · simp only [hc, if_true] at h ⊢
      exact ih r h
    · simp [hc]

theorem dropWhile_cons_space (l : Text) :
    (' ' :: l).dropWhile isPySpace = l.dropWhile isPySpace := by
  rw [List.dropWhile_cons]
  simp [isPySpace]

/-- Stripping is insensitive to one trailing space. -/
theorem pyStrip_append_space (x : Text) : pyStrip (x ++ [' ']) = pyStrip x := by
  unfold pyStrip
  by_cases h : x.dropWhile isPySpace = []
  · rw [dropWhile_append_of_nil x [' '] h, h]
    rfl
  · rw [dropWhile_append_ne x [' '] h, List.reverse_append,
      show ([' '] : Text).reverse = [' '] from rfl, List.singleton_append,
      dropWhile_cons_space]

/-- **C5.** Every success record built by `extract_single_transcript`
satisfies the invariant: its `total_segments` equals the length of its
`segments` list, and its `full_text` is the space-join of the (normalized)
segment texts, stripped of leading and trailing whitespace. -/
theorem extract_single_success_invariant
    (getTranscript : Text → Except Text (List RawEntry)) (video_id : Text)
    (entries : List RawEntry) (h : getTranscript video_id = .ok entries) :
    ∃ segs : List Segment,
      (extract_single_transcript getTranscript video_id).segments = some segs ∧
      (extract_single_transcript getTranscript video_id).total_segments =
        some segs.length ∧
      (extract_single_transcript getTranscript video_id).full_text =
        some (pyStrip (joinSp (segs.map Segment.text))) := by
  have hmm : (entries.map (fun e => clean_transcript_text e.text ++ [' ']))
      = (entries.map (fun e : RawEntry => clean_transcript_text e.text)).map
          (fun t => t ++ [' ']) := by
    rw [List.map_map]
    rfl
  have htext : pyStrip ((entries.map (fun e => clean_transcript_text e.text ++ [' '])).flatten)
      = pyStrip (joinSp (entries.map (fun e : RawEntry => clean_transcript_text e.text))) := by
    rw [hmm]
    cases hE : entries.map (fun e : RawEntry => clean_transcript_text e.text) with
    | nil => rfl
    | cons t ts => rw [mapSp_flatten_eq (t :: ts) (by simp), pyStrip_append_space]
  refine ⟨entries.map
      (fun e => Segment.mk e.start (e.duration.getD 0) (clean_transcript_text e.text)),
    ?_, ?_, ?_⟩
  · unfold extract_single_transcript
    rw [h]
    simp only [fetchStep_foldl, List.nil_append]
  · unfold extract_single_transcript
    rw [h]
    simp only [fetchStep_foldl, List.nil_append]
  · unfold extract_single_transcript
    rw [h]
    simp only [fetchStep_foldl, List.nil_append, List.map_map]
    rw [show (Segment.text ∘ fun e : RawEntry =>
        Segment.mk e.start (e.duration.getD 0) (clean_transcript_text e.text))
      = (fun e : RawEntry => clean_transcript_text e.text) from rfl]
    rw [htext]

/-- A captioning service stub returning two fixed cues for every video. -/
def okGet : Text → Except Text (List RawEntry) := fun _ =>
  .ok [⟨0, some 2, ("hello [music] world".data)⟩, ⟨2, none, ("(applause)".data)⟩]

/-- Closed witness for `extract_single_success_invariant` with a concrete
two-cue service. -/
theorem extract_single_success_invariant_witness :
    okGet ("v1".data) =
      .ok [⟨0, some 2, ("hello [music] world".data)⟩, ⟨2, none, ("(applause)".data)⟩] ∧
    ∃ segs : List Segment,
      (extract_single_transcript okGet ("v1".data)).segments = some segs ∧
      (extract_single_transcript okGet ("v1".data)).total_segments =
        some segs.length ∧
      (extract_single_transcript okGet ("v1".data)).full_text =
        some (pyStrip (joinSp (segs.map Segment.text))) :=
  ⟨rfl, extract_single_success_invariant okGet ("v1".data) _ rfl⟩

/-! ### Lemmas about `dictInsert` and the batch loop -/

theorem dictInsert_mem_keys (k : Text) (v : TranscriptRecord) :
    ∀ d, k ∈ (dictInsert k v d).map Prod.fst := by
  intro d
  induction d with
  | nil => simp [dictInsert]
  | cons kv rest ih =>
    obtain ⟨k2, v2⟩ := kv
    rw [dictInsert]
    by_cases hk : k2 = k
    · simp [hk]
    · simp only [hk, if_false, List.map_cons, List.mem_cons]
      exact Or.inr ih

theorem dictInsert_keys_mono (k : Text) (v : TranscriptRecord) (k3 : Text) :
    ∀ d, k3 ∈ d.map Prod.fst → k3 ∈ (dictInsert k v d).map Prod.fst := by
  intro d
  induction d with
  | nil => simp
  | cons kv rest ih =>
    obtain ⟨k2, v2⟩ := kv
    intro hm
    rw [dictInsert]
    simp only [List.map_cons, List.mem_cons] at hm
    by_cases hk : k2 = k
    · subst hk
      rw [if_pos rfl]
      simp only [List.map_cons, List.mem_cons]
      rcases hm with rfl | hm
      · exact Or.inl rfl
      · exact Or.inr hm
    · simp only [hk, if_false, List.map_cons, List.mem_cons]
      rcases hm with rfl | hm
      · exact Or.inl rfl
      · exact Or.inr (ih hm)

theorem dictInsert_fresh (k : Text) (v : TranscriptRecord) :
    ∀ d, k ∉ d.map Prod.fst → dictInsert k v d = d ++ [(k, v)] := by
  intro d
  induction d with
  | nil => intro _; rfl
  | cons kv rest ih =>
    obtain ⟨k2, v2⟩ := kv
    intro hk
    simp only [List.map_cons, List.mem_cons] at hk
    push_neg at hk
    rw [dictInsert]
    have hne : ¬ (k2 = k) := fun hc => hk.1 hc.symm
    rw [if_neg hne, ih hk.2, List.cons_append]

theorem extractStep_eq (getTranscript : Text → Except Text (List RawEntry))
    (results : List (Text × TranscriptRecord)) (url : Text) :
    extractStep getTranscript results url =
      dictInsert (urlKey url) (urlRecord getTranscript url) results := by
  unfold extractStep urlKey urlRecord
  cases extract_video_id url <;> rfl

theorem foldl_extractStep_keys (getTranscript : Text → Except Text (List RawEntry)) :
    ∀ (urls : List Text) (acc : List (Text × TranscriptRecord)) (k : Text),
    k ∈ acc.map Prod.fst → k ∈ (urls.foldl (extractStep getTranscript) acc).map Prod.fst := by
  intro urls
  induction urls with
  | nil => intro acc k hk; exact hk
  | cons u us ih =>
    intro acc k hk
    rw [List.foldl_cons]
    apply ih
    rw [extractStep_eq]
    exact dictInsert_keys_mono _ _ _ acc hk

theorem extract_transcripts_key_present (getTranscript : Text → Except Text (List RawEntry)) :
    ∀ (urls : List Text) (acc : List (Text × TranscriptRecord)) (url : Text), url ∈ urls →
    urlKey url ∈ (urls.foldl (extractStep getTranscript) acc).map Prod.fst := by
  intro urls
  induction urls with
  | nil => intro acc url hu; simp at hu
  | cons u us ih =>
    intro acc url hu
    rw [List.foldl_cons]
    rcases List.mem_cons.1 hu with rfl | hu
    · apply foldl_extractStep_keys
      rw [extractStep_eq]
      exact dictInsert_mem_keys _ _ acc
    · exact ih _ url hu

/-- **C4.** When the captioning service raises, `extract_single_transcript`
catches the error and returns a failure record whose `error` field is the
error's string description; and batch extraction yields an entry for every
input URL regardless of fetch failures, so a per-video failure never aborts
the processing of subsequent URLs. -/
theorem extract_single_failure_contained
    (getTranscript : Text → Except Text (List RawEntry)) (video_id e : Text)
    (h : getTranscript video_id = .error e) :
    extract_single_transcript getTranscript video_id =
      { video_id := some video_id, full_text := none, segments := none,
        total_segments := none, error := some e, status := "failed".data } ∧
    ∀ (urls : List Text) (url : Text), url ∈ urls →
      urlKey url ∈ (extract_transcripts getTranscript urls).map Prod.fst := by
  constructor
  · unfold extract_single_transcript
    rw [h]
  · intro urls url hu
    exact extract_transcripts_key_present getTranscript urls [] url hu

/-- A captioning service stub that fails on every video. -/
def failGet : Text → Except Text (List RawEntry) := fun _ =>
  .error ("no captions".data)

/-- Closed witness for `extract_single_failure_contained`: a concrete
always-failing service yields the failure record, and the batch keeps an
entry for a later URL. -/
theorem extract_single_failure_contained_witness :
    failGet ("XYZ".data) = .error ("no captions".data) ∧
    extract_single_transcript failGet ("XYZ".data) =
      { video_id := some ("XYZ".data), full_text := none, segments := none,
        total_segments := none, error := some ("no captions".data),
        status := "failed".data } ∧
    urlKey ("not a url".data) ∈
      (extract_transcripts failGet
        [("https://youtu.be/XYZ".data), ("not a url".data)]).map Prod.fst :=
  ⟨rfl,
   (extract_single_failure_contained failGet ("XYZ".data) ("no captions".data) rfl).1,
   (extract_single_failure_contained failGet ("XYZ".data) ("no captions".data) rfl).2
     [("https://youtu.be/XYZ".data), ("not a url".data)] ("not a url".data) (by simp)⟩

theorem foldl_extractStep_fresh (getTranscript : Text → Except Text (List RawEntry)) :
    ∀ (urls : List Text) (acc : List (Text × TranscriptRecord)),
    (urls.map urlKey).Nodup →
    (∀ url ∈ urls, urlKey url ∉ acc.map Prod.fst) →
    urls.foldl (extractStep getTranscript) acc =
      acc ++ urls.map (fun url => (urlKey url, urlRecord getTranscript url)) := by
  intro urls
  induction urls with
  | nil => intro acc _ _; simp
  | cons u us ih =>
    intro acc hnodup hfresh
    rw [List.map_cons, List.nodup_cons] at hnodup
    obtain ⟨hku, hnd⟩ := hnodup
    rw [List.foldl_cons, extractStep_eq,
      dictInsert_fresh _ _ acc (hfresh u (by simp))]
    rw [ih (acc ++ [(urlKey u, urlRecord getTranscript u)]) hnd ?_]
    · simp
    · intro url hurl hmem
      rw [List.map_append] at hmem
      rcases List.mem_append.1 hmem with hin | hin
      · exact hfresh url (by simp [hurl]) hin
      · simp at hin
        exact hku (hin ▸ List.mem_map.2 ⟨url, hurl, rfl⟩)

/-- **C3 (amended).** Provided the derived keys of the URLs (parsed video
ids, or the raw URL when parsing fails) are pairwise distinct,
`extract_transcripts` produces exactly one entry per URL, in input order:
keyed by the parsed video id with the fetcher's record when the URL parses,
and keyed by the raw URL with the `Invalid YouTube URL` failure record
otherwise.  (Without the distinctness proviso a later URL's key can
overwrite an earlier entry, dict-style, last write wins.) -/
theorem extract_transcripts_per_url
    (getTranscript : Text → Except Text (List RawEntry)) (urls : List Text)
    (hnodup : (urls.map urlKey).Nodup) :
    extract_transcripts getTranscript urls =
      urls.map (fun url => (urlKey url, urlRecord getTranscript url)) := by
  have h := foldl_extractStep_fresh getTranscript urls [] hnodup (by simp)
  simpa [extract_transcripts] using h

/-- **C3 is false as stated**: for the input `["ABC",
"https://youtu.be/ABC"]` the unparseable URL `"ABC"` gets no entry with
error `Invalid YouTube URL` in the final batch — its entry is overwritten
by the result for the video id `ABC` parsed from the second URL. -/
theorem extract_transcripts_claim_counterexample :
    extract_video_id ("ABC".data) = none ∧
    extract_transcripts failGet [("ABC".data), ("https://youtu.be/ABC".data)] =
      [(("ABC".data), extract_single_transcript failGet ("ABC".data))] ∧
    (("ABC".data), invalidUrlRecord) ∉
      extract_transcripts failGet [("ABC".data), ("https://youtu.be/ABC".data)] :=
  ⟨by decide, by decide, by decide⟩

/-- Closed witness for `extract_transcripts_per_url` on the spec's example
batch `["https://youtu.be/ABC123", "not a url"]`. -/
theorem extract_transcripts_per_url_witness :
    (([("https://youtu.be/ABC123".data), ("not a url".data)] : List Text).map urlKey).Nodup ∧
    extract_transcripts failGet [("https://youtu.be/ABC123".data), ("not a url".data)] =
      [(("ABC123".data), extract_single_transcript failGet ("ABC123".data)),
       (("not a url".data), invalidUrlRecord)] := by
  constructor
  · decide
  · rw [extract_transcripts_per_url failGet _ (by decide)]
    decide

/-! ### The exporter `save_transcripts` and the output directory -/

/-- The export error raised for an unrecognised format (the spec's
`UnsupportedFormatError`; a `ValueError` in the source). -/
inductive SaveError where
  | unsupportedFormat (format : Text)
  deriving DecidableEq

/-- Filesystem operations performed by the extractor. -/
inductive FsOp where
  | mkdir (dir : Text)
  | writeFile (path : Text)
  deriving DecidableEq

def FsOp.isMkdir : FsOp → Bool
  | .mkdir _ => true
  | .writeFile _ => false

/-- Modelled from the spec: `SUPPORTED_FORMATS` is imported from
`src/config.py`, which is not among the sources; §4.5/§6 of the spec fix
the recognized set as `{json, txt, csv}`. -/
def SUPPORTED_FORMATS : List Text := [("json".data), ("txt".data), ("csv".data)]

/-- `YouTubeTranscriptExtractor.save_transcripts`: validate the format
first (raising the unsupported-format error before touching the
filesystem), then write `{output_dir}/{filename}.{format}` in the branch
for the chosen format.  The result pairs the filesystem operations
performed with either the raised error or the returned filepath; file
contents are not modelled (no claim concerns them). -/
def save_transcripts (output_dir : Text)
    (_transcripts : List (Text × TranscriptRecord)) (format filename : Text) :
    List FsOp × Except SaveError Text :=
  if format ∉ SUPPORTED_FORMATS then
    ([], .error (.unsupportedFormat format))
  else
    let filepath := output_dir ++ ('/' :: filename) ++ ('.' :: format)
    let ops : List FsOp :=
      if format = "json".data then [.writeFile filepath]
      else if format = "txt".data then [.writeFile filepath]
      else if format = "csv".data then [.writeFile filepath]
      else []
    (ops, .ok filepath)

/-- `YouTubeTranscriptExtractor.ensure_output_directory` (called from
`__init__`): create the output directory only if it does not exist. -/
def ensure_output_directory (existing : List Text) (output_dir : Text) : List FsOp :=
  if output_dir ∈ existing then [] else [.mkdir output_dir]

/-- The filesystem trace of a construct-then-save session: `__init__` runs
`ensure_output_directory`, then a `save_transcripts` call performs its
writes. -/
def extractor_session (existing : List Text) (output_dir : Text)
    (transcripts : List (Text × TranscriptRecord)) (format filename : Text) :
    List FsOp :=
  ensure_output_directory existing output_dir ++
    (save_transcripts output_dir transcripts format filename).1

/-- **C7.** `save` with a format outside `{json, txt, csv}` raises the
unsupported-format error having performed no filesystem operation (so no
file is written by the failed call); with a format inside the set no such
error is raised. -/
theorem save_transcripts_format_check (output_dir : Text)
    (transcripts : List (Text × TranscriptRecord)) (format filename : Text) :
    (format ∉ SUPPORTED_FORMATS →
      save_transcripts output_dir transcripts format filename =
        ([], .error (.unsupportedFormat format))) ∧
    (format ∈ SUPPORTED_FORMATS →
      ∃ fp ops, save_transcripts output_dir transcripts format filename =
        (ops, .ok fp)) := by
  constructor
  · intro h
    unfold save_transcripts
    rw [if_pos h]
  · intro h
    unfold save_transcripts
    rw [if_neg (fun hc => hc h)]
    exact ⟨_, _, rfl⟩

/-- Closed witness for `save_transcripts_format_check`: `bogus` is rejected
with no filesystem operation, `json` is accepted. -/
theorem save_transcripts_format_check_witness :
    (("bogus".data) ∉ SUPPORTED_FORMATS ∧
      save_transcripts ("output".data) [] ("bogus".data) ("x".data) =
        ([], .error (.unsupportedFormat ("bogus".data)))) ∧
    (("json".data) ∈ SUPPORTED_FORMATS ∧
      ∃ fp ops, save_transcripts ("output".data) [] ("json".data) ("x".data) =
        (ops, .ok fp)) :=
  ⟨⟨by decide, (save_transcripts_format_check ("output".data) [] ("bogus".data)
      ("x".data)).1 (by decide)⟩,
   ⟨by decide, (save_transcripts_format_check ("output".data) [] ("json".data)
      ("x".data)).2 (by decide)⟩⟩

/-- **C9 is false as stated**: a call to `save_transcripts` performs a file
write but no directory-creation operation at all — `ensure_output_directory`
runs only at construction, not inside `save`. -/
theorem save_transcripts_no_mkdir_counterexample :
    (save_transcripts ("output".data) [] ("json".data) ("transcripts".data)).1 =
      [FsOp.writeFile ("output/transcripts.json".data)] ∧
    ((save_transcripts ("output".data) [] ("json".data)
        ("transcripts".data)).1.all (fun op => !op.isMkdir)) = true :=
  ⟨by decide, by decide⟩

/-- **C9 (amended).** The destination directory is created, if absent, at
extractor construction (`ensure_output_directory` in `__init__`), which
precedes every save on that extractor; `save_transcripts` itself performs
no directory creation, so in a construct-then-save session the creation
precedes any file write. -/
theorem ensure_directory_at_init (existing : List Text) (output_dir : Text)
    (transcripts : List (Text × TranscriptRecord)) (format filename : Text)
    (habsent : output_dir ∉ existing) :
    extractor_session existing output_dir transcripts format filename =
      FsOp.mkdir output_dir ::
        (save_transcripts output_dir transcripts format filename).1 ∧
    ∀ op ∈ (save_transcripts output_dir transcripts format filename).1,
      op.isMkdir = false := by
  constructor
  · unfold extractor_session ensure_output_directory
    rw [if_neg habsent]
    rfl
  · intro op hop
    unfold save_transcripts at hop
    split_ifs at hop <;> simp_all [FsOp.isMkdir]

/-- Closed witness for `ensure_directory_at_init` with an empty filesystem
and the default batch. -/
theorem ensure_directory_at_init_witness :
    ("output".data) ∉ ([] : List Text) ∧
    extractor_session [] ("output".data) [] ("json".data) ("transcripts".data) =
      FsOp.mkdir ("output".data) ::
        (save_transcripts ("output".data) [] ("json".data)
          ("transcripts".data)).1 :=
  ⟨by simp,
   (ensure_directory_at_init [] ("output".data) [] ("json".data)
      ("transcripts".data) (by simp)).1⟩

/-! ### The training data preparer -/

/-- One prepared training chunk.

Modelled from the spec: the dict literal appended by
`AITrainingDataPreparer.prepare_for_training` is cut off inside
`training_data.append({'video_id': video_` in
`src/youtube_transcript_extractor.py`, so the record's fields follow §3 of
the spec: `{videoId, chunkIndex, text}`. -/
structure TrainingChunk where
  video_id : Text
  chunk_index : Nat
  text : Text
  deriving DecidableEq

/-- The body of the per-video loop of `prepare_for_training`: skip records
whose status is not success, otherwise chunk the record's full text and
append one `TrainingChunk` per chunk, numbered by `enumerate` from 0. -/
def prepareStep (maxLen : Nat) (td : List TrainingChunk)
    (kv : Text × TranscriptRecord) : List TrainingChunk :=
  if kv.2.status = "success".data then
    td ++ (chunk_text maxLen (kv.2.full_text.getD [])).enum.map
      (fun ic => ⟨kv.1, ic.1, ic.2⟩)
  else td

/-- `AITrainingDataPreparer.prepare_for_training` with
`max_chunk_length = maxLen`, iterating the batch in insertion order. -/
def prepare_for_training (maxLen : Nat)
    (transcripts : List (Text × TranscriptRecord)) : List TrainingChunk :=
  transcripts.foldl (prepareStep maxLen) []

/-- The chunks contributed by one batch entry. -/
def videoChunks (maxLen : Nat) (kv : Text × TranscriptRecord) :
    List TrainingChunk :=
  if kv.2.status = "success".data then
    (chunk_text maxLen (kv.2.full_text.getD [])).enum.map
      (fun ic => ⟨kv.1, ic.1, ic.2⟩)
  else []

theorem prepareStep_eq (maxLen : Nat) (td : List TrainingChunk)
    (kv : Text × TranscriptRecord) :
    prepareStep maxLen td kv = td ++ videoChunks maxLen kv := by
  unfold prepareStep videoChunks
  by_cases h : kv.2.status = "success".data
  · rw [if_pos h, if_pos h]
  · rw [if_neg h, if_neg h, List.append_nil]

theorem prepare_foldl (maxLen : Nat) : ∀ (ts : List (Text × TranscriptRecord))
    (acc : List TrainingChunk),
    ts.foldl (prepareStep maxLen) acc = acc ++ (ts.map (videoChunks maxLen)).flatten := by
  intro ts
  induction ts with
  | nil => intro acc; simp
  | cons kv ts ih =>
    intro acc
    rw [List.foldl_cons, prepareStep_eq, ih]
    simp

theorem prepare_eq_flatten (maxLen : Nat) (ts : List (Text × TranscriptRecord)) :
    prepare_for_training maxLen ts = (ts.map (videoChunks maxLen)).flatten := by
  have h := prepare_foldl maxLen ts []
  simpa [prepare_for_training] using h

theorem videoChunks_video_id (maxLen : Nat) (kv : Text × TranscriptRecord) :
    ∀ tc ∈ videoChunks maxLen kv, tc.video_id = kv.1 := by
  intro tc htc
  unfold videoChunks at htc
  by_cases h : kv.2.status = "success".data
  · rw [if_pos h] at htc
    obtain ⟨ic, _, rfl⟩ := List.mem_map.1 htc
    rfl
  · rw [if_neg h] at htc
    simp at htc

theorem videoChunks_failure (maxLen : Nat) (kv : Text × TranscriptRecord)
    (h : ¬ kv.2.status = "success".data) : videoChunks maxLen kv = [] := by
  unfold videoChunks
  rw [if_neg h]

theorem videoChunks_map_id (maxLen : Nat) (kv : Text × TranscriptRecord) :
    (videoChunks maxLen kv).map TrainingChunk.video_id =
      List.replicate (videoChunks maxLen kv).length kv.1 := by
  unfold videoChunks
  by_cases h : kv.2.status = "success".data
  · rw [if_pos h, List.map_map, List.length_map]
    rw [show (TrainingChunk.video_id ∘ fun ic : Nat × Text =>
        TrainingChunk.mk kv.1 ic.1 ic.2) = (fun _ => kv.1) from rfl]
    exact List.map_const' _ _
  · rw [if_neg h]
    rfl

theorem prepare_filter_key (maxLen : Nat) : ∀ (ts : List (Text × TranscriptRecord)),
    (ts.map Prod.fst).Nodup → ∀ (k : Text) (rec : TranscriptRecord), (k, rec) ∈ ts →
    (prepare_for_training maxLen ts).filter (fun tc => tc.video_id == k) =
      videoChunks maxLen (k, rec) := by
  intro ts
  induction ts with
  | nil => intro _ k rec h; simp at h
  | cons kv ts ih =>
    intro hnodup k rec hmem
    rw [List.map_cons, List.nodup_cons] at hnodup
    obtain ⟨hknotin, hnd⟩ := hnodup
    rw [prepare_eq_flatten, List.map_cons, List.flatten_cons, List.filter_append]
    rcases List.mem_cons.1 hmem with heq | hmem2
    · subst heq
      have hself : (videoChunks maxLen (k, rec)).filter
          (fun tc => tc.video_id == k) = videoChunks maxLen (k, rec) := by
        apply List.filter_eq_self.2
        intro tc htc
        have h1 := videoChunks_video_id maxLen (k, rec) tc htc
        simp [h1]
      have hnil : ((ts.map (videoChunks maxLen)).flatten).filter
          (fun tc => tc.video_id == k) = [] := by
        apply List.filter_eq_nil_iff.2
        intro tc htc
        obtain ⟨blk, hblk, htcin⟩ := List.mem_flatten.1 htc
        obtain ⟨kv2, hkv2, rfl⟩ := List.mem_map.1 hblk
        have h1 := videoChunks_video_id maxLen kv2 tc htcin
        simp only [h1, beq_iff_eq]
        intro hc
        apply hknotin
        rw [show ((k, rec) : Text × TranscriptRecord).1 = k from rfl, ← hc]
        exact List.mem_map.2 ⟨kv2, hkv2, rfl⟩
      rw [hself, hnil, List.append_nil]
    · have hne : kv.1 ≠ k := by
        intro hc
        apply hknotin
        rw [hc]
        exact List.mem_map.2 ⟨(k, rec), hmem2, rfl⟩
      have hnil : (videoChunks maxLen kv).filter
          (fun tc => tc.video_id == k) = [] := by
        apply List.filter_eq_nil_iff.2
        intro tc htc
        have h1 := videoChunks_video_id maxLen kv tc htc
        simp only [h1, beq_iff_eq]
        exact hne
      rw [hnil, List.nil_append, ← prepare_eq_flatten]
      exact ih hnd k rec hmem2

/-- **C6.** `prepare_for_training` never emits a chunk for a failure record
(every emitted chunk's key belongs to a success record of the batch); for
every success record the chunk indices of its video are exactly
`0, 1, …` — restarting at 0 for each video — and its chunk texts are the
record's text chunks; failure records contribute no chunks; and the chunks
are appended in batch order (the emitted key sequence is the batch-ordered
concatenation of the per-video blocks). -/
theorem prepare_for_training_spec (maxLen : Nat)
    (ts : List (Text × TranscriptRecord)) (hnodup : (ts.map Prod.fst).Nodup) :
    (∀ tc ∈ prepare_for_training maxLen ts, ∃ rec : TranscriptRecord,
        (tc.video_id, rec) ∈ ts ∧ rec.status = "success".data) ∧
    (∀ k rec, (k, rec) ∈ ts → rec.status = "success".data →
      ((prepare_for_training maxLen ts).filter
          (fun tc => tc.video_id == k)).map TrainingChunk.chunk_index =
        List.range (chunk_text maxLen (rec.full_text.getD [])).length ∧
      ((prepare_for_training maxLen ts).filter
          (fun tc => tc.video_id == k)).map TrainingChunk.text =
        chunk_text maxLen (rec.full_text.getD [])) ∧
    (∀ k rec, (k, rec) ∈ ts → ¬ rec.status = "success".data →
      (prepare_for_training maxLen ts).filter (fun tc => tc.video_id == k) = []) ∧
    (prepare_for_training maxLen ts).map TrainingChunk.video_id =
      (ts.map (fun kv => List.replicate (videoChunks maxLen kv).length kv.1)).flatten := by
  refine ⟨?_, ?_, ?_, ?_⟩
  · intro tc htc
    rw [prepare_eq_flatten] at htc
    obtain ⟨blk, hblk, htcin⟩ := List.mem_flatten.1 htc
    obtain ⟨kv, hkv, rfl⟩ := List.mem_map.1 hblk
    by_cases h : kv.2.status = "success".data
    · refine ⟨kv.2, ?_, h⟩
      rw [videoChunks_video_id maxLen kv tc htcin]
      exact Prod.mk.eta ▸ hkv
    · rw [videoChunks_failure maxLen kv h] at htcin
      simp at htcin
  · intro k rec hmem hsucc
    rw [prepare_filter_key maxLen ts hnodup k rec hmem]
    unfold videoChunks
    rw [if_pos hsucc]
    constructor
    · rw [List.map_map]
      rw [show (TrainingChunk.chunk_index ∘ fun ic : Nat × Text =>
          TrainingChunk.mk k ic.1 ic.2) = Prod.fst from rfl]
      exact List.enum_map_fst _
    · rw [List.map_map]
      rw [show (TrainingChunk.text ∘ fun ic : Nat × Text =>
          TrainingChunk.mk k ic.1 ic.2) = Prod.snd from rfl]
      exact List.enum_map_snd _
  · intro k rec hmem hfail
    rw [prepare_filter_key maxLen ts hnodup k rec hmem]
    exact videoChunks_failure maxLen (k, rec) hfail
  · rw [prepare_eq_flatten, List.map_flatten, List.map_map]
    congr 1
    apply List.map_congr_left
    intro kv _
    exact videoChunks_map_id maxLen kv

/-- An example success record used by the training-preparation witness. -/
def exRecSuccess : TranscriptRecord :=
  { video_id := some ("v1".data), full_text := some ("a b c".data),
    segments := some [], total_segments := some 0, error := none,
    status := "success".data }

/-- An example two-entry batch: one success, one failure. -/
def exBatch : List (Text × TranscriptRecord) :=
  [(("v1".data), exRecSuccess), (("v2".data), invalidUrlRecord)]

/-- Closed witness for `prepare_for_training_spec` on `exBatch`. -/
theorem prepare_for_training_spec_witness :
    (exBatch.map Prod.fst).Nodup ∧
    ((prepare_for_training 3 exBatch).filter
        (fun tc => tc.video_id == ("v1".data))).map TrainingChunk.chunk_index =
      List.range (chunk_text 3 (exRecSuccess.full_text.getD [])).length ∧
    (prepare_for_training 3 exBatch).filter
      (fun tc => tc.video_id == ("v2".data)) = [] :=
  ⟨by decide,
   ((prepare_for_training_spec 3 exBatch (by decide)).2.1 ("v1".data) exRecSuccess
      (by decide) (by decide)).1,
   (prepare_for_training_spec 3 exBatch (by decide)).2.2.1 ("v2".data)
     invalidUrlRecord (by decide) (by decide)⟩

/-! ### Lemmas about `searchCapture` and `extract_video_id` -/

theorem matchLit_self_append : ∀ (lit r : Text), matchLit lit (lit ++ r) = some r := by
  intro lit
  induction lit with
  | nil => intro r; rfl
  | cons l ls ih =>
    intro r
    rw [List.cons_append, matchLit, if_pos rfl]
    exact ih r

theorem matchLit_mem : ∀ (lit s tail : Text), matchLit lit s = some tail →
    ∀ c ∈ lit, c ∈ s := by
  intro lit
  induction lit with
  | nil => intro s tail _ c hc; simp at hc
  | cons l ls ih =>
    intro s tail h c hc
    cases s with
    | nil => exact Option.noConfusion h
    | cons c2 cs =>
      rw [matchLit] at h
      by_cases he : l = c2
      · rw [if_pos he] at h
        rcases List.mem_cons.1 hc with rfl | hc
        · exact he ▸ List.mem_cons_self _ _
        · exact List.mem_cons.2 (Or.inr (ih cs tail h c hc))
      · rw [if_neg he] at h
        exact Option.noConfusion h

theorem searchCapture_cons_none (lit : Text) (c : Char) (rest : Text)
    (h : matchLit lit (c :: rest) = none) :
    searchCapture lit (c :: rest) = searchCapture lit rest := by
  rw [searchCapture, h]

theorem searchCapture_exact (lit r : Text) (hlit : lit ≠ [])
    (hcap : r.takeWhile idChar ≠ []) :
    searchCapture lit (lit ++ r) = some (r.takeWhile idChar) := by
  obtain ⟨l, ls, rfl⟩ := List.exists_cons_of_ne_nil hlit
  have hm : matchLit (l :: ls) (l :: (ls ++ r)) = some r := matchLit_self_append (l :: ls) r
  rw [List.cons_append, searchCapture, hm]
  simp [hcap]

theorem searchCapture_none_of_missing (a : Char) (lit : Text) (ha : a ∈ lit) :
    ∀ t : Text, (∀ c ∈ t, c ≠ a) → searchCapture lit t = none := by
  intro t
  induction t with
  | nil => intro _; rfl
  | cons c rest ih =>
    intro ht
    cases hm : matchLit lit (c :: rest) with
    | some tail =>
      have hmem := matchLit_mem lit (c :: rest) tail hm a ha
      exact absurd rfl (ht a hmem)
    | none =>
      rw [searchCapture_cons_none lit c rest hm]
      exact ih (fun x hx => ht x (by simp [hx]))

/-- `lit` mismatches `s` within `s` itself, so it cannot match at this
position whatever follows `s`. -/
def litClash : Text → Text → Bool
  | [], _ => false
  | _ :: _, [] => false
  | l :: ls, c :: cs => if l = c then litClash ls cs else true

theorem litClash_matchLit : ∀ (lit s : Text), litClash lit s = true →
    ∀ x : Text, matchLit lit (s ++ x) = none := by
  intro lit
  induction lit with
  | nil => intro s h; exact absurd h (by rw [litClash]; simp)
  | cons l ls ih =>
    intro s h x
    cases s with
    | nil => exact absurd h (by rw [litClash]; simp)
    | cons c cs =>
      rw [litClash] at h
      rw [List.cons_append, matchLit]
      by_cases he : l = c
      · rw [if_pos he] at h ⊢
        exact ih cs h x
      · rw [if_neg he]

/-- `lit` clashes at every position of `pre`. -/
def allClash (lit : Text) : Text → Bool
  | [] => true
  | c :: rest => litClash lit (c :: rest) && allClash lit rest

theorem searchCapture_skip (lit : Text) : ∀ (pre x : Text), allClash lit pre = true →
    searchCapture lit (pre ++ x) = searchCapture lit x := by
  intro pre
  induction pre with
  | nil => intro x _; rfl
  | cons c rest ih =>
    intro x h
    rw [allClash, Bool.and_eq_true] at h
    rw [List.cons_append,
      searchCapture_cons_none lit c (rest ++ x)
        (litClash_matchLit lit (c :: rest) h.1 x)]
    exact ih x h.2

/-- A plausible video identifier: non-empty, alphanumeric plus `-` `_`. -/
def isIdText (id : Text) : Prop :=
  id ≠ [] ∧ ∀ c ∈ id, (c.isAlphanum = true ∨ c = '-' ∨ c = '_')

/-- A trailing query string or fragment: empty, or starting with `?`, `#`
or `&` and containing no further `/` (which could embed another URL
pattern, hijacking an earlier-tried pattern — Python behaves the same
way). -/
def isTailText (suffix : Text) : Prop :=
  suffix = [] ∨ ∃ c rest, suffix = c :: rest ∧ (c = '?' ∨ c = '#' ∨ c = '&') ∧
    ∀ x ∈ rest, x ≠ '/'

theorem idChar_of_idOk (c : Char)
    (h : c.isAlphanum = true ∨ c = '-' ∨ c = '_') : idChar c = true := by
  rcases h with h | rfl | rfl
  · have h1 : c ≠ '&' := fun hc => absurd (hc ▸ h) (by decide)
    have h2 : c ≠ '\n' := fun hc => absurd (hc ▸ h) (by decide)
    have h3 : c ≠ '?' := fun hc => absurd (hc ▸ h) (by decide)
    have h4 : c ≠ '#' := fun hc => absurd (hc ▸ h) (by decide)
    simp [idChar, h1, h2, h3, h4]
  · rfl
  · rfl

theorem takeWhile_append_all {p : Char → Bool} :
    ∀ (l r : Text), (∀ c ∈ l, p c = true) →
    (l ++ r).takeWhile p = l ++ r.takeWhile p := by
  intro l
  induction l with
  | nil => intro r _; rfl
  | cons c l2 ih =>
    intro r h
    rw [List.cons_append, List.takeWhile_cons]
    simp only [h c (by simp), if_true]
    rw [ih r (fun x hx => h x (by simp [hx]))]
    rfl

theorem takeWhile_id_append (id suffix : Text) (hid : isIdText id)
    (hsuf : isTailText suffix) : (id ++ suffix).takeWhile idChar = id := by
  have hall : ∀ c ∈ id, idChar c = true := fun c hc => idChar_of_idOk c (hid.2 c hc)
  rw [takeWhile_append_all id suffix hall]
  rcases hsuf with rfl | ⟨c, rest, rfl, hc, -⟩
  · simp
  · rw [List.takeWhile_cons]
    have hcf : idChar c = false := by rcases hc with rfl | rfl | rfl <;> rfl
    simp [hcf]

theorem no_slash_in_tail (id suffix : Text) (hid : isIdText id)
    (hsuf : isTailText suffix) : ∀ c ∈ id ++ suffix, c ≠ '/' := by
  intro c hc
  rcases List.mem_append.1 hc with hc | hc
  · rcases hid.2 c hc with h | rfl | rfl
    · intro heq
      exact absurd (heq ▸ h) (by decide)
    · decide
    · decide
  · rcases hsuf with rfl | ⟨c2, rest, rfl, hc2, hrest⟩
    · simp at hc
    · rcases List.mem_cons.1 hc with rfl | hc
      · rcases hc2 with rfl | rfl | rfl <;> decide
      · exact hrest c hc

/-- The optional scheme/host combinations accepted by the patterns
`(?:https?://)?(?:www\.)?`. -/
def urlSchemes : List Text :=
  [("".data), ("www.".data), ("http://".data), ("https://".data),
   ("http://www.".data), ("https://www.".data)]

theorem watch_shape_aux (pre id suffix : Text) (hid : isIdText id)
    (hsuf : isTailText suffix)
    (hcl : allClash ("youtube.com/watch?v=".data) pre = true) :
    extract_video_id (pre ++ ("youtube.com/watch?v=".data) ++ id ++ suffix)
      = some id := by
  have hcap := takeWhile_id_append id suffix hid hsuf
  have h1 : searchCapture ("youtube.com/watch?v=".data)
      (pre ++ ("youtube.com/watch?v=".data) ++ id ++ suffix) = some id := by
    rw [List.append_assoc (pre ++ ("youtube.com/watch?v=".data)) id suffix,
      List.append_assoc pre ("youtube.com/watch?v=".data) (id ++ suffix),
      searchCapture_skip _ pre _ hcl,
      searchCapture_exact _ _ (by decide) (by rw [hcap]; exact hid.1), hcap]
  unfold extract_video_id
  rw [h1]

theorem shortlink_shape_aux (pre id suffix : Text) (hid : isIdText id)
    (hsuf : isTailText suffix)
    (hcl1 : allClash ("youtube.com/watch?v=".data) (pre ++ ("youtu.be/".data)) = true)
    (hcl2 : allClash ("youtu.be/".data) pre = true) :
    extract_video_id (pre ++ ("youtu.be/".data) ++ id ++ suffix) = some id := by
  have hcap := takeWhile_id_append id suffix hid hsuf
  have hns := no_slash_in_tail id suffix hid hsuf
  have h1 : searchCapture ("youtube.com/watch?v=".data)
      (pre ++ ("youtu.be/".data) ++ id ++ suffix) = none := by
    rw [List.append_assoc (pre ++ ("youtu.be/".data)) id suffix,
      searchCapture_skip _ (pre ++ ("youtu.be/".data)) _ hcl1]
    exact searchCapture_none_of_missing '/' _ (by decide) _ hns
  have h2 : searchCapture ("youtu.be/".data)
      (pre ++ ("youtu.be/".data) ++ id ++ suffix) = some id := by
    rw [List.append_assoc (pre ++ ("youtu.be/".data)) id suffix,
      List.append_assoc pre ("youtu.be/".data) (id ++ suffix),
      searchCapture_skip _ pre _ hcl2,
      searchCapture_exact _ _ (by decide) (by rw [hcap]; exact hid.1), hcap]
  unfold extract_video_id
  rw [h1, h2]

theorem embed_shape_aux (pre id suffix : Text) (hid : isIdText id)
    (hsuf : isTailText suffix)
    (hcl1 : allClash ("youtube.com/watch?v=".data)
      (pre ++ ("youtube.com/embed/".data)) = true)
    (hcl2 : allClash ("youtu.be/".data) (pre ++ ("youtube.com/embed/".data)) = true)
    (hcl3 : allClash ("youtube.com/embed/".data) pre = true) :
    extract_video_id (pre ++ ("youtube.com/embed/".data) ++ id ++ suffix)
      = some id := by
  have hcap := takeWhile_id_append id suffix hid hsuf
  have hns := no_slash_in_tail id suffix hid hsuf
  have h1 : searchCapture ("youtube.com/watch?v=".data)
      (pre ++ ("youtube.com/embed/".data) ++ id ++ suffix) = none := by
    rw [List.append_assoc (pre ++ ("youtube.com/embed/".data)) id suffix,
      searchCapture_skip _ (pre ++ ("youtube.com/embed/".data)) _ hcl1]
    exact searchCapture_none_of_missing '/' _ (by decide) _ hns
  have h2 : searchCapture ("youtu.be/".data)
      (pre ++ ("youtube.com/embed/".data) ++ id ++ suffix) = none := by
    rw [List.append_assoc (pre ++ ("youtube.com/embed/".data)) id suffix,
      searchCapture_skip _ (pre ++ ("youtube.com/embed/".data)) _ hcl2]
    exact searchCapture_none_of_missing '/' _ (by decide) _ hns
  have h3 : searchCapture ("youtube.com/embed/".data)
      (pre ++ ("youtube.com/embed/".data) ++ id ++ suffix) = some id := by
    rw [List.append_assoc (pre ++ ("youtube.com/embed/".data)) id suffix,
      List.append_assoc pre ("youtube.com/embed/".data) (id ++ suffix),
      searchCapture_skip _ pre _ hcl3,
      searchCapture_exact _ _ (by decide) (by rw [hcap]; exact hid.1), hcap]
  unfold extract_video_id
  rw [h1, h2, h3]

/-- **C8 is false as stated**: the recognized short-link URL
`https://www.youtu.be/ABC` yields identifier `ABC`, but with the trailing
query `?x=youtube.com/watch?v=EVIL` appended the result changes to `EVIL`
— the first pattern finds its literal inside the query string — so the
returned identifier is not insensitive to trailing query parameters.
Likewise an "identifier" that itself embeds a pattern literal defeats the
claim: the embed-shape URL whose path part is `youtube.com/watch` followed
by `?v=abc` yields `abc`. -/
theorem extract_video_id_query_hijack_cex :
    extract_video_id ("https://www.youtu.be/ABC".data) = some ("ABC".data) ∧
    extract_video_id ("https://www.youtu.be/ABC?x=youtube.com/watch?v=EVIL".data)
      = some ("EVIL".data) ∧
    some ("EVIL".data) ≠ some ("ABC".data) ∧
    extract_video_id ("https://www.youtube.com/embed/youtube.com/watch?v=abc".data)
      = some ("abc".data) :=
  ⟨by decide, by decide, by decide, by decide⟩

/-- **C8 (amended).** `extract_video_id` tries the `watch?v=`, `youtu.be/`
and `embed/` patterns in that order and returns the capture of the first
matching pattern, the capture running until the first `&`, newline, `?` or
`#`.  For every URL of a recognized shape — any accepted scheme/host
variant (optional `http://`/`https://`, optional `www.`) followed by the
pattern literal, an identifier over the id alphabet `[A-Za-z0-9_-]`, and a
trailing query string or fragment containing no further `/` — the returned
identifier is unchanged by the trailing query or fragment; and on a URL
matching no pattern it returns `none` rather than raising.  (Both provisos
are forced by the counterexample: a `/`-bearing query string, or an
"identifier" outside the id alphabet embedding a pattern literal, is
captured by an earlier pattern instead.) -/
theorem extract_video_id_recognized_shapes :
    (∀ pre ∈ urlSchemes, ∀ id suffix, isIdText id → isTailText suffix →
      extract_video_id (pre ++ ("youtube.com/watch?v=".data) ++ id ++ suffix)
        = some id) ∧
    (∀ pre ∈ urlSchemes, ∀ id suffix, isIdText id → isTailText suffix →
      extract_video_id (pre ++ ("youtu.be/".data) ++ id ++ suffix) = some id) ∧
    (∀ pre ∈ urlSchemes, ∀ id suffix, isIdText id → isTailText suffix →
      extract_video_id (pre ++ ("youtube.com/embed/".data) ++ id ++ suffix)
        = some id) ∧
    (∀ url : Text, (∀ c ∈ url, c ≠ '/') → extract_video_id url = none) ∧
    (∀ url cap, searchCapture ("youtube.com/watch?v=".data) url = some cap →
      extract_video_id url = some cap) := by
  refine ⟨?_, ?_, ?_, ?_, ?_⟩
  · intro pre hpre id suffix hid hsuf
    have hpre2 : pre = ("".data) ∨ pre = ("www.".data) ∨ pre = ("http://".data) ∨
        pre = ("https://".data) ∨ pre = ("http://www.".data) ∨
        pre = ("https://www.".data) := by
      simpa [urlSchemes] using hpre
    rcases hpre2 with rfl | rfl | rfl | rfl | rfl | rfl <;>
      exact watch_shape_aux _ id suffix hid hsuf (by decide)
  · intro pre hpre id suffix hid hsuf
    have hpre2 : pre = ("".data) ∨ pre = ("www.".data) ∨ pre = ("http://".data) ∨
        pre = ("https://".data) ∨ pre = ("http://www.".data) ∨
        pre = ("https://www.".data) := by
      simpa [urlSchemes] using hpre
    rcases hpre2 with rfl | rfl | rfl | rfl | rfl | rfl <;>
      exact shortlink_shape_aux _ id suffix hid hsuf (by decide) (by decide)
  · intro pre hpre id suffix hid hsuf
    have hpre2 : pre = ("".data) ∨ pre = ("www.".data) ∨ pre = ("http://".data) ∨
        pre = ("https://".data) ∨ pre = ("http://www.".data) ∨
        pre = ("https://www.".data) := by
      simpa [urlSchemes] using hpre
    rcases hpre2 with rfl | rfl | rfl | rfl | rfl | rfl <;>
      exact embed_shape_aux _ id suffix hid hsuf (by decide) (by decide) (by decide)
  · intro url hns
    have h1 := searchCapture_none_of_missing '/' ("youtube.com/watch?v=".data)
      (by decide) url hns
    have h2 := searchCapture_none_of_missing '/' ("youtu.be/".data)
      (by decide) url hns
    have h3 := searchCapture_none_of_missing '/' ("youtube.com/embed/".data)
      (by decide) url hns
    unfold extract_video_id
    rw [h1, h2, h3]
  · intro url cap h
    unfold extract_video_id
    rw [h]

/-- Closed witness for `extract_video_id_recognized_shapes` at a concrete
identifier, three scheme variants and three trailing-part styles. -/
theorem extract_video_id_recognized_shapes_witness :
    ("www.".data) ∈ urlSchemes ∧
    extract_video_id ("www.youtube.com/watch?v=dQw4w9WgXcQ&t=1".data)
      = some ("dQw4w9WgXcQ".data) ∧
    extract_video_id ("https://youtu.be/dQw4w9WgXcQ?si=abc".data)
      = some ("dQw4w9WgXcQ".data) ∧
    extract_video_id ("youtube.com/embed/dQw4w9WgXcQ#frag".data)
      = some ("dQw4w9WgXcQ".data) ∧
    extract_video_id ("not a url".data) = none := by
  refine ⟨by decide, ?_, ?_, ?_, ?_⟩
  · exact extract_video_id_recognized_shapes.1 ("www.".data) (by decide)
      ("dQw4w9WgXcQ".data) ("&t=1".data) ⟨by decide, by decide⟩
      (Or.inr ⟨'&', ("t=1".data), rfl, by decide, by decide⟩)
  · exact extract_video_id_recognized_shapes.2.1 ("https://".data) (by decide)
      ("dQw4w9WgXcQ".data) ("?si=abc".data) ⟨by decide, by decide⟩
      (Or.inr ⟨'?', ("si=abc".data), rfl, by decide, by decide⟩)
  · exact extract_video_id_recognized_shapes.2.2.1 ("".data) (by decide)
      ("dQw4w9WgXcQ".data) ("#frag".data) ⟨by decide, by decide⟩
      (Or.inr ⟨'#', ("frag".data), rfl, by decide, by decide⟩)
  · exact extract_video_id_recognized_shapes.2.2.2.1 ("not a url".data) (by decide)

end YTX
